import Mathlib

/-
Verification of the Chase-Lev work-stealing deque from
src/libcore/rt/work_queue.rs.

The Rust code manipulates machine-word (uint) counters with wrap-around
arithmetic, a circular buffer of owned pointers where the null pointer is
the empty sentinel, and the operations push / pop / steal / grow / shrink.
We embed the data structures and operations shallowly:
  * uint values are Nats below W = 2^64, with subtraction and the cast
    to a signed int made explicit;
  * a buffer slot holds `Option α`: `none` is the zero/null sentinel the
    code stores with atomic_xchg(p, 0), `some x` is an owned box;
  * `QueueResult.Have` carries `Option α` because the code returns the raw
    (possibly null) pointer obtained from `take` inside `Have`.
-/

set_option maxRecDepth 4000

namespace ChaseLev

/-- The modulus of machine-word (uint, 64-bit) arithmetic: 2^64. -/
def W : Nat := 18446744073709551616

/-- Two to the 63rd power: the first uint value that is negative as an int. -/
def HALF : Nat := 9223372036854775808

/-- Wrap-around subtraction of machine words (for a b < W this is uint a - b). -/
def usub (a b : Nat) : Nat := (a + (W - b)) % W

/-- Reinterpretation of a machine word as a signed 64-bit int (the Rust cast
in the source, written there as int). -/
def toSigned (a : Nat) : Int := if a < HALF then (a : Int) else (a : Int) - (W : Int)

/-- WorkBuffer: the circular buffer. The Rust field is a vector of owned
pointers where the value 0 marks an empty slot; a slot is modelled as
an Option. -/
structure WorkBuffer (α : Type) where
  buf : List (Option α)
deriving DecidableEq

namespace WorkBuffer

/-- WorkBuffer::new: a buffer of the given size with every slot zeroed. -/
def new (α : Type) (size : Nat) : WorkBuffer α := ⟨List.replicate size none⟩

/-- WorkBuffer::len: the capacity. -/
def len (wb : WorkBuffer α) : Nat := wb.buf.length

/-- WorkBuffer::wrap: the index map i & (len - 1), with len - 1 computed in
wrap-around uint arithmetic as in the source. -/
def wrap (wb : WorkBuffer α) (i : Nat) : Nat := i &&& ((wb.len + (W - 1)) % W)

/-- Raw store of a word (item pointer or the null sentinel) into the wrapped
slot.  This is the effect of vec set / atomic exchange on one cell; the
source's put specializes it to a non-null pointer, and grow/shrink store
whatever word take returned. -/
def setSlot (wb : WorkBuffer α) (idx : Nat) (v : Option α) : WorkBuffer α :=
  ⟨wb.buf.set (wb.wrap idx) v⟩

/-- Read the wrapped slot's current word. -/
def get (wb : WorkBuffer α) (idx : Nat) : Option α :=
  wb.buf.getD (wb.wrap idx) none

/-- WorkBuffer::take: atomic_xchg of the wrapped slot with 0 — returns the
old word and leaves the slot empty. -/
def take (wb : WorkBuffer α) (idx : Nat) : Option α × WorkBuffer α :=
  (wb.get idx, wb.setSlot idx none)

/-- WorkBuffer::put: store an item into the wrapped slot. -/
def put (wb : WorkBuffer α) (idx : Nat) (t : α) : WorkBuffer α :=
  wb.setSlot idx (some t)

/-- The loop `for uint::range(top, bot) |i| { buf.put(i, self.take(i)) }`
shared by grow and shrink, with the iteration count made structural:
n = bot - top steps starting at i = top.  The source buffer is mutated
(each take zeroes the slot it read) exactly as in the code. -/
def moveRange (src dst : WorkBuffer α) (i : Nat) : Nat → WorkBuffer α
  | 0 => dst
  | n + 1 =>
    let r := src.take i
    moveRange r.2 (dst.setSlot i r.1) (i + 1) n

/-- WorkBuffer::grow: a new buffer of capacity len << 1 (uint arithmetic)
receiving the range [top, bot) of this buffer. -/
def grow (wb : WorkBuffer α) (bot top : Nat) : WorkBuffer α :=
  moveRange wb (new α ((wb.len <<< 1) % W)) top (bot - top)

/-- WorkBuffer::shrink: a new buffer of capacity len >> 1 receiving the
range [top, bot) of this buffer. -/
def shrink (wb : WorkBuffer α) (bot top : Nat) : WorkBuffer α :=
  moveRange wb (new α (wb.len >>> 1)) top (bot - top)

end WorkBuffer

/-- QueueResult: Empty, Abort, or Have of the raw word the operation took
from a slot (the code puts the possibly-null owned pointer inside Have). -/
inductive QueueResult (α : Type) where
  | Empty
  | Abort
  | Have (o : Option α)
deriving DecidableEq

/-- WorkQueue: top and bottom counters plus the active buffer. -/
structure WorkQueue (α : Type) where
  top : Nat
  bottom : Nat
  active_buffer : WorkBuffer α
deriving DecidableEq

namespace WorkQueue

/-- WorkQueue::new: top = 0, bottom = 0, buffer of INIT_QUEUE_SIZE = 64. -/
def new (α : Type) : WorkQueue α := ⟨0, 0, WorkBuffer.new α 64⟩

/-- WorkQueue::cas_top: compare-and-swap on top; succeeds exactly when the
current value equals old, in which case top becomes new. -/
def cas_top (q : WorkQueue α) (old new : Nat) : Bool × WorkQueue α :=
  if q.top = old then (true, { q with top := new }) else (false, q)

/-- WorkQueue::push: load b and t, grow when size >= len - 1 (publishing the
new buffer), put the item at index b, store bottom = b + 1. -/
def push (q : WorkQueue α) (o : α) : WorkQueue α :=
  let b := q.bottom
  let t := q.top
  let buf := q.active_buffer
  let size := usub b t
  let buf1 := if usub buf.len 1 ≤ size then buf.grow b t else buf
  let buf2 := buf1.put b o
  { q with bottom := (b + 1) % W, active_buffer := buf2 }

/-- WorkQueue::try_shrink: when bot - top < len / 3, publish the shrunk
buffer. -/
def try_shrink (q : WorkQueue α) (bot top : Nat) : WorkQueue α :=
  let size := usub bot top
  let buf := q.active_buffer
  if size < buf.len / 3 then
    { q with active_buffer := buf.shrink bot top }
  else q

/-- WorkQueue::pop: decrement bottom, reload top, then branch on the signed
size: negative restores bottom = t and returns Empty; positive takes the
item at b, may shrink, and returns Have; zero takes the item, races the
CAS on top, stores bottom = t + 1 and returns Have on CAS success else
Empty. -/
def pop (q : WorkQueue α) : QueueResult α × WorkQueue α :=
  let b := usub q.bottom 1
  let t := q.top
  let size := toSigned (usub b t)
  if size < 0 then
    (QueueResult.Empty, { q with bottom := t })
  else
    let r := q.active_buffer.take b
    let o := r.1
    if 0 < size then
      let q1 := try_shrink { q with bottom := b, active_buffer := r.2 } b t
      (QueueResult.Have o, q1)
    else
      let c := cas_top { q with active_buffer := r.2 } t ((t + 1) % W)
      let q2 := { c.2 with bottom := (t + 1) % W }
      (if c.1 then QueueResult.Have o else QueueResult.Empty, q2)

/-- WorkQueue::steal: read t then b; non-positive signed size returns Empty;
otherwise take at t and return Have only if the taken word is non-null
AND the CAS on top succeeds (short-circuit: a null take skips the CAS);
every other outcome is Abort. -/
def steal (q : WorkQueue α) : QueueResult α × WorkQueue α :=
  let t := q.top
  let b := q.bottom
  let size := toSigned (usub b t)
  if size ≤ 0 then
    (QueueResult.Empty, q)
  else
    let r := q.active_buffer.take t
    let o := r.1
    if o.isSome then
      let c := cas_top { q with active_buffer := r.2 } t ((t + 1) % W)
      (if c.1 then QueueResult.Have o else QueueResult.Abort, c.2)
    else
      (QueueResult.Abort, { q with active_buffer := r.2 })

/-- WorkQueue::is_empty: the uint comparison (top - bottom) <= 0. -/
def is_empty (q : WorkQueue α) : Bool := usub q.top q.bottom ≤ 0

end WorkQueue

/-- A single-threaded operation on the deque. -/
inductive Op (α : Type) where
  | push (x : α)
  | pop
  | steal

/-- Apply one operation, keeping only the state. -/
def applyOp (q : WorkQueue α) : Op α → WorkQueue α
  | Op.push x => q.push x
  | Op.pop => (q.pop).2
  | Op.steal => (q.steal).2

/-- Run a sequence of operations sequentially. -/
def runOps (q : WorkQueue α) : List (Op α) → WorkQueue α
  | [] => q
  | op :: rest => runOps (applyOp q op) rest

/-- Perform n pops, collecting the results in order. -/
def pops (q : WorkQueue α) : Nat → List (QueueResult α) × WorkQueue α
  | 0 => ([], q)
  | n + 1 =>
    let r := q.pop
    let rest := pops r.2 n
    (r.1 :: rest.1, rest.2)

/-- Perform n steals, collecting the results in order. -/
def steals (q : WorkQueue α) : Nat → List (QueueResult α) × WorkQueue α
  | 0 => ([], q)
  | n + 1 =>
    let r := q.steal
    let rest := steals r.2 n
    (r.1 :: rest.1, rest.2)

/-- Push every item of the list, left to right. -/
def pushAll (q : WorkQueue α) (xs : List α) : WorkQueue α :=
  xs.foldl WorkQueue.push q

/-
Fine-grained interleaving model of one owner executing a single pop
concurrently with one thief executing a single steal.  Each step performs
at most one access to the shared state (WorkQueue Nat): one atomic load,
one atomic store, one slot exchange (take) or one CAS, exactly following
the statement order of WorkQueue::pop and WorkQueue::steal.  Program
counters advance through the statements of the source; pc 10 is
termination.
-/

/-- Owner-side local registers while one pop is in flight. -/
structure OwnerSt where
  pc : Nat
  b : Nat
  t : Nat
  o : Option Nat
  res : Option (QueueResult Nat)
deriving DecidableEq

/-- Thief-side local registers while one steal is in flight. -/
structure ThiefSt where
  pc : Nat
  t : Nat
  b : Nat
  o : Option Nat
  res : Option (QueueResult Nat)
deriving DecidableEq

/-- One atomic step of the owner's pop.
pc 0: load bottom and subtract one; pc 1: store bottom = b;
pc 2: load top; pc 3: branch on signed size, storing bottom = t and
returning Empty when negative; pc 4: the unconditional take at b;
pc 5: the size > 0 exit (try_shrink then Have, never reached by the
schedules proved about below); pc 6: the CAS on top deciding Have/Empty;
pc 7: store bottom = t + 1 and finish. -/
def ownerStep (q : WorkQueue Nat) (s : OwnerSt) : WorkQueue Nat × OwnerSt :=
  match s.pc with
  | 0 => (q, { s with b := usub q.bottom 1, pc := 1 })
  | 1 => ({ q with bottom := s.b }, { s with pc := 2 })
  | 2 => (q, { s with t := q.top, pc := 3 })
  | 3 =>
    if toSigned (usub s.b s.t) < 0 then
      ({ q with bottom := s.t }, { s with res := some QueueResult.Empty, pc := 10 })
    else (q, { s with pc := 4 })
  | 4 =>
    let r := q.active_buffer.take s.b
    ({ q with active_buffer := r.2 },
     { s with o := r.1, pc := if 0 < toSigned (usub s.b s.t) then 5 else 6 })
  | 5 => (WorkQueue.try_shrink q s.b s.t, { s with res := some (QueueResult.Have s.o), pc := 10 })
  | 6 =>
    let c := WorkQueue.cas_top q s.t ((s.t + 1) % W)
    (c.2, { s with res := some (if c.1 then QueueResult.Have s.o else QueueResult.Empty), pc := 7 })
  | 7 => ({ q with bottom := (s.t + 1) % W }, { s with pc := 10 })
  | _ => (q, s)

/-- One atomic step of the thief's steal.
pc 0: load top; pc 1: load bottom; pc 2: branch on signed size, returning
Empty when non-positive; pc 3: the take at t; pc 4: the null test on the
taken word (a null take short-circuits to Abort without a CAS); pc 5: the
CAS on top deciding Have/Abort. -/
def thiefStep (q : WorkQueue Nat) (s : ThiefSt) : WorkQueue Nat × ThiefSt :=
  match s.pc with
  | 0 => (q, { s with t := q.top, pc := 1 })
  | 1 => (q, { s with b := q.bottom, pc := 2 })
  | 2 =>
    if toSigned (usub s.b s.t) ≤ 0 then
      (q, { s with res := some QueueResult.Empty, pc := 10 })
    else (q, { s with pc := 3 })
  | 3 =>
    let r := q.active_buffer.take s.t
    ({ q with active_buffer := r.2 }, { s with o := r.1, pc := 4 })
  | 4 =>
    if s.o.isSome then (q, { s with pc := 5 })
    else (q, { s with res := some QueueResult.Abort, pc := 10 })
  | 5 =>
    let c := WorkQueue.cas_top q s.t ((s.t + 1) % W)
    (c.2, { s with res := some (if c.1 then QueueResult.Have s.o else QueueResult.Abort), pc := 10 })
  | _ => (q, s)

/-- Combined race state: shared queue plus both threads' local states. -/
structure RaceState where
  q : WorkQueue Nat
  owner : OwnerSt
  thief : ThiefSt
deriving DecidableEq

/-- Schedule one step: true runs the owner, false runs the thief. -/
def raceStep (s : RaceState) (ownerTurn : Bool) : RaceState :=
  if ownerTurn then
    let r := ownerStep s.q s.owner
    { s with q := r.1, owner := r.2 }
  else
    let r := thiefStep s.q s.thief
    { s with q := r.1, thief := r.2 }

/-- Run a whole schedule of interleaved steps. -/
def raceRun (s : RaceState) : List Bool → RaceState
  | [] => s
  | c :: rest => raceRun (raceStep s c) rest

/-- Initial race state: the queue holds the single pushed item 42, and both
threads are about to start. -/
def raceInit : RaceState :=
  ⟨(WorkQueue.new Nat).push 42, ⟨0, 0, 0, none, none⟩, ⟨0, 0, 0, none, none⟩⟩

/-- The losing interleaving: the thief reads top, bottom, passes the size
check and takes the item; then the owner runs its entire pop (its take
returns the null sentinel, yet its CAS on top succeeds, so it returns
Have of the null word); finally the thief, although it holds the item,
fails its CAS and returns Abort, discarding the item. -/
def badSchedule : List Bool :=
  [false, false, false, false, true, true, true, true, true, true, true, false, false]

/-- A generous bound on run lengths (2^61 operations): far beyond any
physical run yet small enough that the uint counters never wrap. -/
def FUEL : Nat := 2305843009213693952

/-- The sequential state invariant maintained by push, pop and steal from a
fresh deque: ordered in-range counters, at most capacity minus one live
items, a power-of-two capacity small enough that doubling cannot
overflow, and an item in every live slot. -/
structure Inv {α : Type} (q : WorkQueue α) : Prop where
  t_le_b : q.top ≤ q.bottom
  b_lt_W : q.bottom < W
  size_lt : q.bottom < q.top + q.active_buffer.len
  pow2 : ∃ k, 1 ≤ k ∧ q.active_buffer.len = 2 ^ k
  len_lt : q.active_buffer.len < HALF
  occ : ∀ i, i < q.bottom - q.top → ((q.active_buffer.get (q.top + i)).isSome = true)

/-! Arithmetic facts about the machine-word operations. -/

lemma W_pos : 0 < W := by decide

lemma half_lt_W : HALF < W := by decide

lemma usub_lt_W (a b : Nat) : usub a b < W := Nat.mod_lt _ W_pos

lemma usub_of_le {a b : Nat} (hba : b ≤ a) (ha : a < W) : usub a b = a - b := by
  simp only [usub, W] at *
  omega

lemma usub_self {t : Nat} (h : t ≤ W) : usub t t = 0 := by
  simp only [usub, W] at *
  omega

lemma usub_pred_self {t : Nat} (h : t < W) : usub (usub t 1) t = W - 1 := by
  simp only [usub, W] at *
  omega

lemma toSigned_neg_of_half_le {a : Nat} (h1 : HALF ≤ a) (h2 : a < W) : toSigned a < 0 := by
  simp only [toSigned, HALF, W] at *
  split
  · omega
  · omega

lemma toSigned_of_lt_half {a : Nat} (h : a < HALF) : toSigned a = (a : Int) := by
  simp only [toSigned, HALF] at *
  split
  · rfl
  · omega

lemma toSigned_nonneg_of_lt_half {a : Nat} (h : a < HALF) : ¬ toSigned a < 0 := by
  rw [toSigned_of_lt_half h]
  omega

lemma toSigned_pos_of_lt_half {a : Nat} (h : a < HALF) (h0 : 0 < a) : 0 < toSigned a := by
  rw [toSigned_of_lt_half h]
  omega

lemma toSigned_W_sub_one_neg : toSigned (W - 1) < 0 := by decide

/-! Facts about buffer slots. -/

namespace WorkBuffer

lemma len_new (α : Type) (n : Nat) : (new α n).len = n := by
  simp [new, len]

lemma get_new (α : Type) (n i : Nat) : (new α n).get i = none := by
  simp only [new, get, List.getD_eq_getElem?_getD, List.getElem?_replicate]
  split <;> rfl

lemma len_setSlot (wb : WorkBuffer α) (i : Nat) (v : Option α) :
    (wb.setSlot i v).len = wb.len := by
  simp [setSlot, len]

lemma wrap_setSlot (wb : WorkBuffer α) (i j : Nat) (v : Option α) :
    (wb.setSlot i v).wrap j = wb.wrap j := by
  simp [wrap, len_setSlot]

lemma buf_setSlot (wb : WorkBuffer α) (i : Nat) (v : Option α) :
    (wb.setSlot i v).buf = wb.buf.set (wb.wrap i) v := rfl

lemma get_eq (wb : WorkBuffer α) (i : Nat) :
    wb.get i = wb.buf.getD (wb.wrap i) none := rfl

lemma get_setSlot_self (wb : WorkBuffer α) (i : Nat) (v : Option α)
    (h : wb.wrap i < wb.len) : (wb.setSlot i v).get i = v := by
  rw [get_eq, buf_setSlot, wrap_setSlot]
  rw [List.getD_eq_getElem?_getD,
    List.getElem?_set_self (show wb.wrap i < wb.buf.length from h)]
  rfl

lemma get_setSlot_none_self (wb : WorkBuffer α) (i : Nat) :
    (wb.setSlot i (none : Option α)).get i = none := by
  by_cases h : wb.wrap i < wb.len
  · exact get_setSlot_self wb i none h
  · rw [get_eq, buf_setSlot, wrap_setSlot, List.getD_eq_getElem?_getD,
      List.getElem?_eq_none]
    · rfl
    · rw [List.length_set]
      exact Nat.le_of_not_lt h

lemma get_setSlot_of_wrap_ne (wb : WorkBuffer α) (i j : Nat) (v : Option α)
    (h : wb.wrap j ≠ wb.wrap i) : (wb.setSlot i v).get j = wb.get j := by
  rw [get_eq, get_eq, buf_setSlot, wrap_setSlot,
    List.getD_eq_getElem?_getD, List.getD_eq_getElem?_getD,
    List.getElem?_set_ne (fun hc => h (hc.symm))]

lemma take_fst (wb : WorkBuffer α) (i : Nat) : (wb.take i).1 = wb.get i := rfl

lemma take_snd (wb : WorkBuffer α) (i : Nat) : (wb.take i).2 = wb.setSlot i none := rfl

lemma len_take (wb : WorkBuffer α) (i : Nat) : (wb.take i).2.len = wb.len :=
  len_setSlot wb i none

lemma len_put (wb : WorkBuffer α) (i : Nat) (t : α) : (wb.put i t).len = wb.len :=
  len_setSlot wb i (some t)

/-- For a power-of-two capacity below the word modulus, wrap is reduction
mod the capacity. -/
lemma wrap_pow2 (wb : WorkBuffer α) (k i : Nat) (hlen : wb.len = 2 ^ k)
    (hW : 2 ^ k < W) : wb.wrap i = i % 2 ^ k := by
  have h1 : (wb.len + (W - 1)) % W = 2 ^ k - 1 := by
    rw [hlen]
    have h2 : 1 ≤ 2 ^ k := Nat.one_le_two_pow
    simp only [W] at *
    omega
  rw [wrap, h1, Nat.and_pow_two_sub_one_eq_mod]

lemma wrap_lt_pow2 (wb : WorkBuffer α) (k i : Nat) (hlen : wb.len = 2 ^ k)
    (hW : 2 ^ k < W) : wb.wrap i < wb.len := by
  rw [wrap_pow2 wb k i hlen hW, hlen]
  exact Nat.mod_lt _ (Nat.pos_pow_of_pos k (by omega))

/-- Two indices less than a capacity apart with equal wraps are equal. -/
lemma wrap_inj_pow2 (wb : WorkBuffer α) (k i j : Nat) (hlen : wb.len = 2 ^ k)
    (hW : 2 ^ k < W) (hij : i ≤ j) (hd : j - i < 2 ^ k)
    (he : wb.wrap i = wb.wrap j) : i = j := by
  rw [wrap_pow2 wb k i hlen hW, wrap_pow2 wb k j hlen hW] at he
  have hdvd : 2 ^ k ∣ j - i := (Nat.modEq_iff_dvd' hij).mp he
  have := Nat.eq_zero_of_dvd_of_lt hdvd
  omega

lemma moveRange_len (src dst : WorkBuffer α) (i n : Nat) :
    (moveRange src dst i n).len = dst.len := by
  induction n generalizing src dst i with
  | zero => rfl
  | succ n ih =>
    rw [moveRange]
    rw [ih]
    exact len_setSlot dst i _

lemma moveRange_wrap (src dst : WorkBuffer α) (i n j : Nat) :
    (moveRange src dst i n).wrap j = dst.wrap j := by
  simp [wrap, moveRange_len]

/-- A slot whose position is not the wrap of any index in the moved range is
untouched by moveRange. -/
lemma moveRange_get_notin (src dst : WorkBuffer α) (i n p : Nat)
    (h : ∀ j, i ≤ j → j < i + n → dst.wrap j ≠ dst.wrap p) :
    (moveRange src dst i n).get p = dst.get p := by
  induction n generalizing src dst i with
  | zero => rfl
  | succ n ih =>
    rw [moveRange]
    have hstep := ih (src.take i).2 (dst.setSlot i (src.take i).1) (i + 1) (by
      intro j hj1 hj2
      rw [wrap_setSlot, wrap_setSlot]
      exact h j (by omega) (by omega))
    rw [hstep]
    exact get_setSlot_of_wrap_ne dst i p _ (fun hc => h i (le_refl i) (by omega) hc.symm)

/-- Inside the moved range, with both wrap maps injective on the range and
the destination wrap in bounds, moveRange copies the original source
slot. -/
lemma moveRange_get_live (src dst : WorkBuffer α) (i n j0 : Nat)
    (hj1 : i ≤ j0) (hj2 : j0 < i + n)
    (hsrc : ∀ j k, i ≤ j → j < i + n → i ≤ k → k < i + n →
      src.wrap j = src.wrap k → j = k)
    (hdst : ∀ j k, i ≤ j → j < i + n → i ≤ k → k < i + n →
      dst.wrap j = dst.wrap k → j = k)
    (hwl : ∀ j, dst.wrap j < dst.len) :
    (moveRange src dst i n).get j0 = src.get j0 := by
  induction n generalizing src dst i with
  | zero => omega
  | succ n ih =>
    rw [moveRange]
    by_cases hji : j0 = i
    · subst hji
      have hnotin : ∀ j, j0 + 1 ≤ j → j < (j0 + 1) + n →
          (dst.setSlot j0 (src.take j0).1).wrap j ≠ (dst.setSlot j0 (src.take j0).1).wrap j0 := by
        intro j hj1' hj2' hc
        rw [wrap_setSlot, wrap_setSlot] at hc
        have := hdst j j0 (by omega) (by omega) (by omega) (by omega) hc
        omega
      rw [moveRange_get_notin _ _ _ _ _ hnotin]
      rw [take_fst]
      exact get_setSlot_self dst j0 _ (hwl j0)
    · have hstep := ih (src.take i).2 (dst.setSlot i (src.take i).1) (i + 1)
        (by omega) (by omega)
        (by
          intro j k hj1' hj2' hk1' hk2' hc
          rw [take_snd, wrap_setSlot, wrap_setSlot] at hc
          exact hsrc j k (by omega) (by omega) (by omega) (by omega) hc)
        (by
          intro j k hj1' hj2' hk1' hk2' hc
          rw [wrap_setSlot, wrap_setSlot] at hc
          exact hdst j k (by omega) (by omega) (by omega) (by omega) hc)
        (by
          intro j
          rw [wrap_setSlot, len_setSlot]
          exact hwl j)
      rw [hstep, take_snd]
      exact get_setSlot_of_wrap_ne src i j0 none
        (fun hc => hji (hsrc j0 i (by omega) (by omega) (by omega) (by omega) hc))

/-- Two indices in a window of at most one capacity have distinct wraps
unless equal (symmetric form). -/
lemma wrap_inj_range (wb : WorkBuffer α) (k : Nat) (hlen : wb.len = 2 ^ k)
    (hW : 2 ^ k < W) (lo n : Nat) (hn : n ≤ 2 ^ k) :
    ∀ j j', lo ≤ j → j < lo + n → lo ≤ j' → j' < lo + n →
      wb.wrap j = wb.wrap j' → j = j' := by
  intro j j' h1 h2 h3 h4 he
  rcases Nat.le_total j j' with h | h
  · exact wrap_inj_pow2 wb k j j' hlen hW h (by omega) he
  · exact (wrap_inj_pow2 wb k j' j hlen hW h (by omega) he.symm).symm

end WorkBuffer

lemma inv_new (α : Type) : Inv (WorkQueue.new α) := by
  constructor
  · exact Nat.le_refl 0
  · show (0 : Nat) < W
    decide
  · show (0 : Nat) < 0 + (WorkBuffer.new α 64).len
    rw [WorkBuffer.len_new]
    omega
  · refine ⟨6, by omega, ?_⟩
    show (WorkBuffer.new α 64).len = 2 ^ 6
    rw [WorkBuffer.len_new]
    decide
  · show (WorkBuffer.new α 64).len < HALF
    rw [WorkBuffer.len_new]
    decide
  · intro i hi
    simp only [WorkQueue.new] at hi
    omega

/-- Zeta-expanded form of push. -/
lemma push_def (q : WorkQueue α) (x : α) :
    q.push x =
      { q with
        bottom := (q.bottom + 1) % W,
        active_buffer :=
          (if usub q.active_buffer.len 1 ≤ usub q.bottom q.top then
            q.active_buffer.grow q.bottom q.top
          else q.active_buffer).put q.bottom x } := rfl

/-- Full specification of push from an invariant state: top unchanged,
bottom incremented, capacity doubled exactly when size reached capacity
minus one, the item stored at index b, the live range preserved, and the
invariant maintained. -/
lemma push_spec (q : WorkQueue α) (x : α) (hInv : Inv q) (hb : q.bottom < FUEL) :
    (q.push x).top = q.top ∧
    (q.push x).bottom = q.bottom + 1 ∧
    (q.push x).active_buffer.len =
      (if q.active_buffer.len - 1 ≤ q.bottom - q.top then 2 * q.active_buffer.len
       else q.active_buffer.len) ∧
    (q.push x).active_buffer.get q.bottom = some x ∧
    (∀ i, q.top ≤ i → i < q.bottom →
      (q.push x).active_buffer.get i = q.active_buffer.get i) ∧
    Inv (q.push x) := by
  obtain ⟨k, hk1, hklen⟩ := hInv.pow2
  have htb := hInv.t_le_b
  have hbW := hInv.b_lt_W
  have hsz := hInv.size_lt
  have hlh := hInv.len_lt
  have hL1 : 1 ≤ q.active_buffer.len := by
    rw [hklen]
    exact Nat.one_le_two_pow
  have hLW : q.active_buffer.len < W := lt_trans hlh half_lt_W
  have h2kW : 2 ^ k < W := hklen ▸ hLW
  have hbF : q.bottom + 1 < W := by
    simp only [FUEL] at hb
    simp only [W]
    omega
  have hb1 : (q.bottom + 1) % W = q.bottom + 1 := Nat.mod_eq_of_lt hbF
  have h1 : usub q.bottom q.top = q.bottom - q.top := usub_of_le htb hbW
  have h2 : usub q.active_buffer.len 1 = q.active_buffer.len - 1 := usub_of_le hL1 hLW
  rw [push_def, h1, h2]
  by_cases hg : q.active_buffer.len - 1 ≤ q.bottom - q.top
  · -- grow case: size is exactly capacity minus one
    rw [if_pos hg]
    have hsize : q.bottom - q.top = q.active_buffer.len - 1 := by omega
    have hglen : (q.active_buffer.grow q.bottom q.top).len = 2 * q.active_buffer.len := by
      rw [WorkBuffer.grow, WorkBuffer.moveRange_len, WorkBuffer.len_new]
      have h2L : q.active_buffer.len <<< 1 = 2 * q.active_buffer.len := by
        rw [Nat.shiftLeft_eq]
        ring
      rw [h2L]
      apply Nat.mod_eq_of_lt
      simp only [W, HALF] at *
      omega
    have hglen2 : (q.active_buffer.grow q.bottom q.top).len = 2 ^ (k + 1) := by
      rw [hglen, hklen, Nat.pow_succ]
      ring
    have h2k1W : 2 ^ (k + 1) < W := by
      rw [Nat.pow_succ]
      simp only [W, HALF] at *
      omega
    -- the grown buffer agrees with the old one on the live range
    have hlive : ∀ i, q.top ≤ i → i < q.bottom →
        (q.active_buffer.grow q.bottom q.top).get i = q.active_buffer.get i := by
      intro i hi1 hi2
      rw [WorkBuffer.grow]
      apply WorkBuffer.moveRange_get_live
      · exact hi1
      · omega
      · exact WorkBuffer.wrap_inj_range _ k hklen h2kW q.top (q.bottom - q.top) (by omega)
      · have hn : (WorkBuffer.new α ((q.active_buffer.len <<< 1) % W)).len = 2 ^ (k + 1) := by
          have := hglen2
          rw [WorkBuffer.grow, WorkBuffer.moveRange_len] at this
          exact this
        exact WorkBuffer.wrap_inj_range _ (k + 1) hn h2k1W q.top (q.bottom - q.top) (by
          rw [Nat.pow_succ]
          have := Nat.one_le_two_pow (n := k)
          omega)
      · intro j
        have hn : (WorkBuffer.new α ((q.active_buffer.len <<< 1) % W)).len = 2 ^ (k + 1) := by
          have := hglen2
          rw [WorkBuffer.grow, WorkBuffer.moveRange_len] at this
          exact this
        exact WorkBuffer.wrap_lt_pow2 _ (k + 1) j hn h2k1W
    -- wraps in the grown buffer are injective on the closed live range
    have hinj : ∀ j j', q.top ≤ j → j < q.bottom + 1 → q.top ≤ j' → j' < q.bottom + 1 →
        (q.active_buffer.grow q.bottom q.top).wrap j =
          (q.active_buffer.grow q.bottom q.top).wrap j' → j = j' := by
      intro j j' hj1 hj2 hj3 hj4 he
      refine WorkBuffer.wrap_inj_range _ (k + 1) hglen2 h2k1W q.top (q.bottom - q.top + 1)
        ?_ j j' hj1 (by omega) hj3 (by omega) he
      rw [Nat.pow_succ]
      have := Nat.one_le_two_pow (n := k)
      omega
    have hwl : ∀ j, (q.active_buffer.grow q.bottom q.top).wrap j <
        (q.active_buffer.grow q.bottom q.top).len :=
      fun j => WorkBuffer.wrap_lt_pow2 _ (k + 1) j hglen2 h2k1W
    refine ⟨rfl, hb1, ?_, ?_, ?_, ?_⟩
    · rw [if_pos hg]
      show ((q.active_buffer.grow q.bottom q.top).put q.bottom x).len = _
      rw [WorkBuffer.len_put, hglen]
    · show ((q.active_buffer.grow q.bottom q.top).put q.bottom x).get q.bottom = some x
      rw [WorkBuffer.put]
      exact WorkBuffer.get_setSlot_self _ _ _ (hwl q.bottom)
    · intro i hi1 hi2
      show ((q.active_buffer.grow q.bottom q.top).put q.bottom x).get i = _
      rw [WorkBuffer.put, WorkBuffer.get_setSlot_of_wrap_ne _ _ _ _ (by
        intro hc
        have hcc := hinj i q.bottom hi1 (by omega) (by omega) (by omega) hc
        omega)]
      exact hlive i hi1 hi2
    · refine ⟨?_, ?_, ?_, ⟨k + 1, by omega, ?_⟩, ?_, ?_⟩
      · show q.top ≤ (q.bottom + 1) % W
        rw [hb1]
        omega
      · show (q.bottom + 1) % W < W
        rw [hb1]
        exact hbF
      · show (q.bottom + 1) % W < q.top + ((q.active_buffer.grow q.bottom q.top).put q.bottom x).len
        rw [hb1, WorkBuffer.len_put, hglen]
        omega
      · show ((q.active_buffer.grow q.bottom q.top).put q.bottom x).len = 2 ^ (k + 1)
        rw [WorkBuffer.len_put, hglen2]
      · show ((q.active_buffer.grow q.bottom q.top).put q.bottom x).len < HALF
        rw [WorkBuffer.len_put, hglen]
        simp only [W, HALF, FUEL] at *
        omega
      · intro i hi
        replace hi : i < (q.bottom + 1) % W - q.top := hi
        rw [hb1] at hi
        show (((q.active_buffer.grow q.bottom q.top).put q.bottom x).get (q.top + i)).isSome = true
        by_cases hlast : q.top + i = q.bottom
        · rw [hlast, WorkBuffer.put]
          rw [WorkBuffer.get_setSlot_self _ _ _ (hwl q.bottom)]
          rfl
        · rw [WorkBuffer.put, WorkBuffer.get_setSlot_of_wrap_ne _ _ _ _ (by
            intro hc
            exact hlast (hinj (q.top + i) q.bottom (by omega) (by omega) (by omega)
              (by omega) hc))]
          rw [hlive (q.top + i) (by omega) (by omega)]
          exact hInv.occ i (by omega)
  · -- no grow: size is at most capacity minus two
    rw [if_neg hg]
    have hwl : ∀ j, q.active_buffer.wrap j < q.active_buffer.len :=
      fun j => WorkBuffer.wrap_lt_pow2 _ k j hklen h2kW
    have hinj : ∀ j j', q.top ≤ j → j < q.bottom + 1 → q.top ≤ j' → j' < q.bottom + 1 →
        q.active_buffer.wrap j = q.active_buffer.wrap j' → j = j' := by
      intro j j' hj1 hj2 hj3 hj4 he
      refine WorkBuffer.wrap_inj_range _ k hklen h2kW q.top (q.bottom - q.top + 1)
        ?_ j j' hj1 (by omega) hj3 (by omega) he
      rw [← hklen]
      omega
    refine ⟨rfl, hb1, ?_, ?_, ?_, ?_⟩
    · rw [if_neg hg]
      show (q.active_buffer.put q.bottom x).len = _
      rw [WorkBuffer.len_put]
    · show (q.active_buffer.put q.bottom x).get q.bottom = some x
      rw [WorkBuffer.put]
      exact WorkBuffer.get_setSlot_self _ _ _ (hwl q.bottom)
    · intro i hi1 hi2
      show (q.active_buffer.put q.bottom x).get i = _
      rw [WorkBuffer.put, WorkBuffer.get_setSlot_of_wrap_ne _ _ _ _ (by
        intro hc
        have := hinj i q.bottom hi1 (by omega) (by omega) (by omega) hc
        omega)]
    · refine ⟨?_, ?_, ?_, ⟨k, hk1, ?_⟩, ?_, ?_⟩
      · show q.top ≤ (q.bottom + 1) % W
        rw [hb1]
        omega
      · show (q.bottom + 1) % W < W
        rw [hb1]
        exact hbF
      · show (q.bottom + 1) % W < q.top + (q.active_buffer.put q.bottom x).len
        rw [hb1, WorkBuffer.len_put]
        omega
      · show (q.active_buffer.put q.bottom x).len = 2 ^ k
        rw [WorkBuffer.len_put, hklen]
      · show (q.active_buffer.put q.bottom x).len < HALF
        rw [WorkBuffer.len_put]
        exact hlh
      · intro i hi
        replace hi : i < (q.bottom + 1) % W - q.top := hi
        rw [hb1] at hi
        show ((q.active_buffer.put q.bottom x).get (q.top + i)).isSome = true
        by_cases hlast : q.top + i = q.bottom
        · rw [hlast, WorkBuffer.put]
          rw [WorkBuffer.get_setSlot_self _ _ _ (hwl q.bottom)]
          rfl
        · rw [WorkBuffer.put, WorkBuffer.get_setSlot_of_wrap_ne _ _ _ _ (by
            intro hc
            exact hlast (hinj (q.top + i) q.bottom (by omega) (by omega) (by omega)
              (by omega) hc))]
          exact hInv.occ i (by omega)

/-- On a deque whose bottom equals top, pop underflows b, sees a negative
signed size, restores bottom = t and returns Empty with the state intact. -/
lemma pop_of_bottom_eq_top (q : WorkQueue α) (h : q.bottom = q.top) (hW : q.top < W) :
    q.pop = (QueueResult.Empty, q) := by
  obtain ⟨t, b, buf⟩ := q
  replace h : b = t := h
  replace hW : t < W := hW
  subst h
  simp only [WorkQueue.pop]
  rw [usub_pred_self hW, if_pos toSigned_W_sub_one_neg]

/-- On a deque whose bottom equals top, steal sees size zero and returns
Empty without touching the state. -/
lemma steal_of_bottom_eq_top (q : WorkQueue α) (h : q.bottom = q.top) (hW : q.top < W) :
    q.steal = (QueueResult.Empty, q) := by
  simp only [WorkQueue.steal]
  rw [h, usub_self (Nat.le_of_lt hW)]
  rw [if_pos (by decide : toSigned 0 ≤ 0)]

/-- Pop on the last item (size zero in pop's accounting): the item at t is
taken, the sequential CAS succeeds, and the state normalizes to
top = bottom = t + 1. -/
lemma pop_zero_case (q : WorkQueue α) (hInv : Inv q) (heq : q.bottom = q.top + 1) :
    q.pop = (QueueResult.Have (q.active_buffer.get q.top),
      { top := q.top + 1, bottom := q.top + 1,
        active_buffer := q.active_buffer.setSlot q.top none }) ∧
    (q.active_buffer.get q.top).isSome = true ∧
    Inv (q.pop).2 := by
  obtain ⟨k, hk1, hklen⟩ := hInv.pow2
  have htb := hInv.t_le_b
  have hbW := hInv.b_lt_W
  have htW : q.top < W := by omega
  have ht1W : (q.top + 1) % W = q.top + 1 := Nat.mod_eq_of_lt (by omega)
  have hb' : usub q.bottom 1 = q.top := by
    rw [usub_of_le (by omega) hbW]
    omega
  have hocc : (q.active_buffer.get q.top).isSome = true := by
    have h0 := hInv.occ 0 (by omega)
    rw [Nat.add_zero] at h0
    exact h0
  have hpop : q.pop = (QueueResult.Have (q.active_buffer.get q.top),
      { top := q.top + 1, bottom := q.top + 1,
        active_buffer := q.active_buffer.setSlot q.top none }) := by
    simp only [WorkQueue.pop, WorkQueue.cas_top]
    rw [hb', usub_self (Nat.le_of_lt htW)]
    rw [if_neg (by decide : ¬ toSigned 0 < 0)]
    rw [if_neg (by decide : ¬ (0 : Int) < toSigned 0)]
    rw [ht1W]
    simp only [if_true]
    rfl
  refine ⟨hpop, hocc, ?_⟩
  rw [hpop]
  constructor
  · exact Nat.le_refl _
  · show q.top + 1 < W
    omega
  · show q.top + 1 < q.top + 1 + (q.active_buffer.setSlot q.top none).len
    rw [WorkBuffer.len_setSlot, hklen]
    have := Nat.one_le_two_pow (n := k)
    omega
  · refine ⟨k, hk1, ?_⟩
    show (q.active_buffer.setSlot q.top none).len = 2 ^ k
    rw [WorkBuffer.len_setSlot, hklen]
  · show (q.active_buffer.setSlot q.top none).len < HALF
    rw [WorkBuffer.len_setSlot]
    exact hInv.len_lt
  · intro i hi
    simp only at hi
    omega

/-- Pop with at least two live items (pop's size > 0 branch): returns Have
of the item at b = bottom - 1, shrinks the capacity exactly when the
remaining size is below capacity / 3, preserves the remaining live range,
and maintains the invariant. -/
lemma pop_pos_case (q : WorkQueue α) (hInv : Inv q) (hpos : q.top + 1 < q.bottom) :
    (q.pop).1 = QueueResult.Have (q.active_buffer.get (q.bottom - 1)) ∧
    (q.active_buffer.get (q.bottom - 1)).isSome = true ∧
    (q.pop).2.top = q.top ∧
    (q.pop).2.bottom = q.bottom - 1 ∧
    (q.pop).2.active_buffer.len =
      (if q.bottom - 1 - q.top < q.active_buffer.len / 3 then q.active_buffer.len / 2
       else q.active_buffer.len) ∧
    (∀ i, q.top ≤ i → i < q.bottom - 1 →
      (q.pop).2.active_buffer.get i = q.active_buffer.get i) ∧
    Inv (q.pop).2 := by
  obtain ⟨k, hk1, hklen⟩ := hInv.pow2
  have htb := hInv.t_le_b
  have hbW := hInv.b_lt_W
  have hsz := hInv.size_lt
  have hlh := hInv.len_lt
  have hLW : q.active_buffer.len < W := lt_trans hlh half_lt_W
  have h2kW : 2 ^ k < W := hklen ▸ hLW
  have hb' : usub q.bottom 1 = q.bottom - 1 := usub_of_le (by omega) hbW
  have hsize : usub (q.bottom - 1) q.top = q.bottom - 1 - q.top :=
    usub_of_le (by omega) (by omega)
  have hszhalf : q.bottom - 1 - q.top < HALF := by omega
  have hts : toSigned (usub (usub q.bottom 1) q.top) = ((q.bottom - 1 - q.top : Nat) : Int) := by
    rw [hb', hsize, toSigned_of_lt_half hszhalf]
  have htsneg : ¬ toSigned (usub (usub q.bottom 1) q.top) < 0 := by
    rw [hts]
    omega
  have htspos : 0 < toSigned (usub (usub q.bottom 1) q.top) := by
    rw [hts]
    omega
  have hoccb : (q.active_buffer.get (q.bottom - 1)).isSome = true := by
    have h0 := hInv.occ (q.bottom - 1 - q.top) (by omega)
    rw [show q.top + (q.bottom - 1 - q.top) = q.bottom - 1 from by omega] at h0
    exact h0
  have hwl : ∀ j, q.active_buffer.wrap j < q.active_buffer.len :=
    fun j => WorkBuffer.wrap_lt_pow2 _ k j hklen h2kW
  have hinj : ∀ j j', q.top ≤ j → j < q.bottom → q.top ≤ j' → j' < q.bottom →
      q.active_buffer.wrap j = q.active_buffer.wrap j' → j = j' := by
    intro j j' hj1 hj2 hj3 hj4 he
    refine WorkBuffer.wrap_inj_range _ k hklen h2kW q.top (q.bottom - q.top)
      ?_ j j' hj1 (by omega) hj3 (by omega) he
    rw [← hklen]
    omega
  -- the taken buffer agrees with the original outside slot b
  have htk : ∀ i, q.top ≤ i → i < q.bottom - 1 →
      (q.active_buffer.take (q.bottom - 1)).2.get i = q.active_buffer.get i := by
    intro i hi1 hi2
    rw [WorkBuffer.take_snd]
    refine WorkBuffer.get_setSlot_of_wrap_ne _ _ _ _ ?_
    intro hc
    have := hinj i (q.bottom - 1) hi1 (by omega) (by omega) (by omega) hc
    omega
  have hpop : q.pop = (QueueResult.Have (q.active_buffer.get (q.bottom - 1)),
      WorkQueue.try_shrink
        (WorkQueue.mk q.top (q.bottom - 1) (q.active_buffer.take (q.bottom - 1)).2)
        (q.bottom - 1) q.top) := by
    simp only [WorkQueue.pop]
    rw [if_neg htsneg, if_pos htspos, hb']
    rfl
  rw [hpop]
  refine ⟨rfl, hoccb, ?_⟩
  simp only [WorkQueue.try_shrink]
  rw [hsize, WorkBuffer.len_take]
  by_cases hsh : q.bottom - 1 - q.top < q.active_buffer.len / 3
  · -- shrink happens
    rw [if_pos hsh]
    have hM : q.active_buffer.len = 2 * 2 ^ (k - 1) := by
      rw [hklen]
      have hkk : 2 ^ (k - 1 + 1) = 2 ^ k := by
        rw [Nat.sub_add_cancel hk1]
      rw [← hkk, Nat.pow_succ]
      ring
    have hk2 : 1 ≤ k - 1 := by
      by_contra hcon
      have h0 : k - 1 = 0 := by omega
      rw [h0, pow_zero, Nat.mul_one] at hM
      omega
    have hMpos : 1 ≤ 2 ^ (k - 1) := Nat.one_le_two_pow
    have h2k1W : 2 ^ (k - 1) < W := by omega
    have hSlen : ((q.active_buffer.take (q.bottom - 1)).2.shrink (q.bottom - 1) q.top).len =
        2 ^ (k - 1) := by
      rw [WorkBuffer.shrink, WorkBuffer.moveRange_len, WorkBuffer.len_new,
        WorkBuffer.len_take, Nat.shiftRight_eq_div_pow, pow_one, hM]
      omega
    have hnewlen : (WorkBuffer.new α ((q.active_buffer.take (q.bottom - 1)).2.len >>> 1)).len =
        2 ^ (k - 1) := by
      rw [WorkBuffer.len_new, WorkBuffer.len_take, Nat.shiftRight_eq_div_pow, pow_one, hM]
      omega
    have hlive : ∀ i, q.top ≤ i → i < q.bottom - 1 →
        ((q.active_buffer.take (q.bottom - 1)).2.shrink (q.bottom - 1) q.top).get i =
          q.active_buffer.get i := by
      intro i hi1 hi2
      rw [WorkBuffer.shrink]
      rw [WorkBuffer.moveRange_get_live _ _ _ _ i hi1 (by omega)
        (by
          intro j j' hj1 hj2 hj3 hj4 he
          rw [WorkBuffer.take_snd, WorkBuffer.wrap_setSlot, WorkBuffer.wrap_setSlot] at he
          exact hinj j j' (by omega) (by omega) (by omega) (by omega) he)
        (by
          intro j j' hj1 hj2 hj3 hj4 he
          refine WorkBuffer.wrap_inj_range _ (k - 1) hnewlen h2k1W q.top
            (q.bottom - 1 - q.top) ?_ j j' hj1 (by omega) hj3 (by omega) he
          omega)
        (by
          intro j
          exact WorkBuffer.wrap_lt_pow2 _ (k - 1) j hnewlen h2k1W)]
      exact htk i hi1 hi2
    refine ⟨rfl, rfl, ?_, ?_, ?_⟩
    · show ((q.active_buffer.take (q.bottom - 1)).2.shrink (q.bottom - 1) q.top).len = _
      rw [if_pos hsh, hSlen, hM]
      omega
    · intro i hi1 hi2
      exact hlive i hi1 hi2
    · constructor
      · show q.top ≤ q.bottom - 1
        omega
      · show q.bottom - 1 < W
        omega
      · show q.bottom - 1 < q.top +
          ((q.active_buffer.take (q.bottom - 1)).2.shrink (q.bottom - 1) q.top).len
        rw [hSlen]
        omega
      · exact ⟨k - 1, hk2, hSlen⟩
      · show ((q.active_buffer.take (q.bottom - 1)).2.shrink (q.bottom - 1) q.top).len < HALF
        rw [hSlen]
        omega
      · intro i hi
        replace hi : i < q.bottom - 1 - q.top := hi
        show (((q.active_buffer.take (q.bottom - 1)).2.shrink (q.bottom - 1) q.top).get
          (q.top + i)).isSome = true
        rw [hlive (q.top + i) (by omega) (by omega)]
        exact hInv.occ i (by omega)
  · -- no shrink
    rw [if_neg hsh]
    refine ⟨rfl, rfl, ?_, ?_, ?_⟩
    · show (q.active_buffer.take (q.bottom - 1)).2.len = _
      rw [if_neg hsh, WorkBuffer.len_take]
    · intro i hi1 hi2
      exact htk i hi1 hi2
    · constructor
      · show q.top ≤ q.bottom - 1
        omega
      · show q.bottom - 1 < W
        omega
      · show q.bottom - 1 < q.top + (q.active_buffer.take (q.bottom - 1)).2.len
        rw [WorkBuffer.len_take]
        omega
      · refine ⟨k, hk1, ?_⟩
        show (q.active_buffer.take (q.bottom - 1)).2.len = 2 ^ k
        rw [WorkBuffer.len_take, hklen]
      · show (q.active_buffer.take (q.bottom - 1)).2.len < HALF
        rw [WorkBuffer.len_take]
        omega
      · intro i hi
        replace hi : i < q.bottom - 1 - q.top := hi
        show ((q.active_buffer.take (q.bottom - 1)).2.get (q.top + i)).isSome = true
        rw [htk (q.top + i) (by omega) (by omega)]
        exact hInv.occ i (by omega)

/-- Steal with at least one live item: the take at top returns the item,
the sequential CAS succeeds, and the result is Have with top advanced. -/
lemma steal_pos_case (q : WorkQueue α) (hInv : Inv q) (hpos : q.top < q.bottom) :
    q.steal = (QueueResult.Have (q.active_buffer.get q.top),
      WorkQueue.mk (q.top + 1) q.bottom (q.active_buffer.setSlot q.top none)) ∧
    (q.active_buffer.get q.top).isSome = true ∧
    Inv (q.steal).2 := by
  obtain ⟨k, hk1, hklen⟩ := hInv.pow2
  have htb := hInv.t_le_b
  have hbW := hInv.b_lt_W
  have hsz := hInv.size_lt
  have hlh := hInv.len_lt
  have hLW : q.active_buffer.len < W := lt_trans hlh half_lt_W
  have h2kW : 2 ^ k < W := hklen ▸ hLW
  have hsize : usub q.bottom q.top = q.bottom - q.top := usub_of_le htb hbW
  have hszhalf : q.bottom - q.top < HALF := by omega
  have hts : toSigned (usub q.bottom q.top) = ((q.bottom - q.top : Nat) : Int) := by
    rw [hsize, toSigned_of_lt_half hszhalf]
  have hcond : ¬ toSigned (usub q.bottom q.top) ≤ 0 := by
    rw [hts]
    omega
  have hocc : (q.active_buffer.get q.top).isSome = true := by
    have h0 := hInv.occ 0 (by omega)
    rw [Nat.add_zero] at h0
    exact h0
  have ht1W : (q.top + 1) % W = q.top + 1 := Nat.mod_eq_of_lt (by omega)
  have hinj : ∀ j j', q.top ≤ j → j < q.bottom → q.top ≤ j' → j' < q.bottom →
      q.active_buffer.wrap j = q.active_buffer.wrap j' → j = j' := by
    intro j j' hj1 hj2 hj3 hj4 he
    refine WorkBuffer.wrap_inj_range _ k hklen h2kW q.top (q.bottom - q.top)
      ?_ j j' hj1 (by omega) hj3 (by omega) he
    rw [← hklen]
    omega
  have hsteal : q.steal = (QueueResult.Have (q.active_buffer.get q.top),
      WorkQueue.mk (q.top + 1) q.bottom (q.active_buffer.setSlot q.top none)) := by
    simp only [WorkQueue.steal, WorkQueue.cas_top]
    rw [if_neg hcond, WorkBuffer.take_fst, hocc, ht1W]
    simp only [if_true]
    rfl
  refine ⟨hsteal, hocc, ?_⟩
  rw [hsteal]
  constructor
  · show q.top + 1 ≤ q.bottom
    omega
  · exact hbW
  · show q.bottom < q.top + 1 + (q.active_buffer.setSlot q.top none).len
    rw [WorkBuffer.len_setSlot]
    omega
  · refine ⟨k, hk1, ?_⟩
    show (q.active_buffer.setSlot q.top none).len = 2 ^ k
    rw [WorkBuffer.len_setSlot, hklen]
  · show (q.active_buffer.setSlot q.top none).len < HALF
    rw [WorkBuffer.len_setSlot]
    exact hlh
  · intro i hi
    replace hi : i < q.bottom - (q.top + 1) := hi
    show ((q.active_buffer.setSlot q.top none).get (q.top + 1 + i)).isSome = true
    rw [WorkBuffer.get_setSlot_of_wrap_ne _ _ _ _ (by
      intro hc
      have := hinj (q.top + 1 + i) q.top (by omega) (by omega) (by omega) (by omega) hc
      omega)]
    have h0 := hInv.occ (i + 1) (by omega)
    rw [show q.top + (i + 1) = q.top + 1 + i from by omega] at h0
    exact h0

/-- Pop preserves the invariant and never increases bottom. -/
lemma pop_preserves (q : WorkQueue α) (hInv : Inv q) :
    Inv (q.pop).2 ∧ (q.pop).2.bottom ≤ q.bottom := by
  have htb := hInv.t_le_b
  have hbW := hInv.b_lt_W
  by_cases h1 : q.bottom = q.top
  · rw [pop_of_bottom_eq_top q h1 (by omega)]
    exact ⟨hInv, Nat.le_refl _⟩
  · by_cases h2 : q.bottom = q.top + 1
    · obtain ⟨hpop, hocc, hi⟩ := pop_zero_case q hInv h2
      refine ⟨hi, ?_⟩
      rw [hpop]
      show q.top + 1 ≤ q.bottom
      omega
    · obtain ⟨h3, h4, h5, hbot, h6, h7, hi⟩ := pop_pos_case q hInv (by omega)
      refine ⟨hi, ?_⟩
      rw [hbot]
      omega

/-- Steal preserves the invariant, leaves bottom unchanged, and never
returns Abort sequentially. -/
lemma steal_preserves (q : WorkQueue α) (hInv : Inv q) :
    Inv (q.steal).2 ∧ (q.steal).2.bottom = q.bottom ∧
    (q.steal).1 ≠ QueueResult.Abort := by
  have htb := hInv.t_le_b
  have hbW := hInv.b_lt_W
  by_cases h1 : q.bottom = q.top
  · rw [steal_of_bottom_eq_top q h1 (by omega)]
    exact ⟨hInv, rfl, fun h => QueueResult.noConfusion h⟩
  · obtain ⟨hsteal, hocc, hi⟩ := steal_pos_case q hInv (by omega)
    refine ⟨hi, ?_, ?_⟩
    · rw [hsteal]
    · rw [hsteal]
      exact fun h => QueueResult.noConfusion h

/-- Running any bounded sequence of operations from an invariant state
preserves the invariant, and bottom grows by at most one per operation. -/
lemma runOps_inv (ops : List (Op α)) (q : WorkQueue α) (hInv : Inv q)
    (hfuel : q.bottom + ops.length ≤ FUEL) :
    Inv (runOps q ops) ∧ (runOps q ops).bottom ≤ q.bottom + ops.length := by
  induction ops generalizing q with
  | nil =>
    refine ⟨hInv, ?_⟩
    rw [runOps]
    omega
  | cons op rest ih =>
    simp only [List.length_cons] at hfuel ⊢
    rw [runOps]
    cases op with
    | push x =>
      have hp := push_spec q x hInv (by omega)
      have hbeq := hp.2.1
      have hri := ih (q.push x) hp.2.2.2.2.2 (by rw [hbeq]; omega)
      simp only [applyOp]
      refine ⟨hri.1, ?_⟩
      have := hri.2
      rw [hbeq] at this
      omega
    | pop =>
      have hp := pop_preserves q hInv
      have hri := ih (q.pop).2 hp.1 (by omega)
      simp only [applyOp]
      refine ⟨hri.1, ?_⟩
      have := hri.2
      omega
    | steal =>
      have hp := steal_preserves q hInv
      have hri := ih (q.steal).2 hp.1 (by rw [hp.2.1]; omega)
      simp only [applyOp]
      refine ⟨hri.1, ?_⟩
      have := hri.2
      rw [hp.2.1] at this
      omega

/-!  Claim theorems. -/

/-- C1: the claim states that under any interleaving of one owner's
pushes/pops with concurrent steals, every pushed item is returned by
exactly one successful pop/steal.  The code violates this: in the
exhibited schedule on a one-item queue, the thief takes the item, the
owner's pop then takes the (now null) slot yet wins the CAS and returns
Have of the null word, the thief loses the CAS and returns Abort, and the
pushed item 42 is returned by no call at all. -/
theorem C1_lost_item_interleaving :
    (raceRun raceInit badSchedule).owner.res = some (QueueResult.Have none) ∧
    (raceRun raceInit badSchedule).thief.res = some QueueResult.Abort ∧
    (raceRun raceInit badSchedule).q.top = 1 ∧
    (raceRun raceInit badSchedule).q.bottom = 1 := by decide

/-- C2: pushing 1,2,3,4 on a fresh deque and popping six times yields
Have 4, Have 3, Have 2, Have 1, Empty, Empty in that order. -/
theorem C2_owner_lifo :
    (pops (pushAll (WorkQueue.new Nat) [1, 2, 3, 4]) 6).1 =
      [QueueResult.Have (some 4), QueueResult.Have (some 3), QueueResult.Have (some 2),
       QueueResult.Have (some 1), QueueResult.Empty, QueueResult.Empty] := by decide

/-- C3: pushing 0..71 on a fresh deque grows the buffer (capacity 128 after
the pushes) and stealing 73 times yields Have 0, ..., Have 71 in
ascending order followed by Empty. -/
theorem C3_thief_fifo_after_grow :
    (pushAll (WorkQueue.new Nat) (List.range 72)).active_buffer.len = 128 ∧
    (steals (pushAll (WorkQueue.new Nat) (List.range 72)) 73).1 =
      (List.range 72).map (fun i => QueueResult.Have (some i)) ++ [QueueResult.Empty] := by
  decide

/-- C4 counterexample: the claim says is_empty returns top >= bottom, but at
the state top = 1, bottom = 0 (reachable mid-pop) top >= bottom holds
while is_empty returns false, because the code computes the unsigned
comparison (top - bottom) <= 0 which only holds on equality. -/
theorem C4_counterexample :
    (WorkQueue.mk 1 0 (WorkBuffer.new Nat 64)).is_empty = false ∧
    (WorkQueue.mk 1 0 (WorkBuffer.new Nat 64)).bottom ≤
      (WorkQueue.mk 1 0 (WorkBuffer.new Nat 64)).top := by decide

/-- C4 amended: is_empty returns true exactly when top equals bottom, for
any in-range counters (the unsigned expression (top - bottom) <= 0 holds
only at equality). -/
theorem C4_amended_is_empty_iff_eq (α : Type) (q : WorkQueue α)
    (ht : q.top < W) (hb : q.bottom < W) :
    q.is_empty = true ↔ q.top = q.bottom := by
  simp only [WorkQueue.is_empty, decide_eq_true_eq]
  simp only [usub, W] at ht hb ⊢
  omega

/-- Witness for the amended C4 at the fresh deque. -/
theorem C4_amended_witness :
    (WorkQueue.new Nat).is_empty = true ↔
      (WorkQueue.new Nat).top = (WorkQueue.new Nat).bottom :=
  C4_amended_is_empty_iff_eq Nat (WorkQueue.new Nat) (by decide) (by decide)

/-- C5: on any deque state with bottom = top (in particular a fresh one),
pop restores bottom = t and returns Empty with the state unchanged, and
steal returns Empty without modifying anything. -/
theorem C5_empty_pop_steal (α : Type) (q : WorkQueue α) (h : q.bottom = q.top)
    (hW : q.top < W) :
    q.pop = (QueueResult.Empty, q) ∧ q.steal = (QueueResult.Empty, q) :=
  ⟨pop_of_bottom_eq_top q h hW, steal_of_bottom_eq_top q h hW⟩

/-- Witness for C5 at the fresh deque. -/
theorem C5_witness :
    (WorkQueue.new Nat).pop = (QueueResult.Empty, WorkQueue.new Nat) ∧
    (WorkQueue.new Nat).steal = (QueueResult.Empty, WorkQueue.new Nat) :=
  C5_empty_pop_steal Nat (WorkQueue.new Nat) rfl (by decide)

/-- C6: push grows (doubling the capacity, copying the live range [t, b))
exactly when b - t reached capacity minus one, always writes the item at
index b, publishes bottom = b + 1, leaves top alone, and is a total
function (never an error). -/
theorem C6_push_contract (α : Type) (q : WorkQueue α) (x : α) (hInv : Inv q)
    (hb : q.bottom < FUEL) :
    (q.push x).active_buffer.len =
      (if q.active_buffer.len - 1 ≤ q.bottom - q.top then 2 * q.active_buffer.len
       else q.active_buffer.len) ∧
    (q.push x).active_buffer.get q.bottom = some x ∧
    (q.push x).bottom = q.bottom + 1 ∧
    (q.push x).top = q.top ∧
    (∀ i, q.top ≤ i → i < q.bottom →
      (q.push x).active_buffer.get i = q.active_buffer.get i) := by
  obtain ⟨h1, h2, h3, h4, h5, h6⟩ := push_spec q x hInv hb
  exact ⟨h3, h4, h2, h1, h5⟩

/-- Witness for C6 at the fresh deque with item 7. -/
theorem C6_witness :
    ((WorkQueue.new Nat).push 7).active_buffer.get (WorkQueue.new Nat).bottom = some 7 ∧
    ((WorkQueue.new Nat).push 7).bottom = (WorkQueue.new Nat).bottom + 1 :=
  ⟨(C6_push_contract Nat (WorkQueue.new Nat) 7 (inv_new Nat) (by decide)).2.1,
   (C6_push_contract Nat (WorkQueue.new Nat) 7 (inv_new Nat) (by decide)).2.2.1⟩

/-- C7: the capacity is 64 at construction; wrap maps index i to
i &&& (capacity - 1); grow doubles and shrink halves the capacity, each
moving the live range [top, bottom) into the new storage unchanged; and
along any bounded run the capacity remains a power of two. -/
theorem C7_capacity_invariants (α : Type) :
    (WorkQueue.new α).active_buffer.len = 64 ∧
    (∀ wb : WorkBuffer α, ∀ i, 1 ≤ wb.len → wb.len < W →
      wb.wrap i = i &&& (wb.len - 1)) ∧
    (∀ wb : WorkBuffer α, ∀ b t, wb.len < HALF → (wb.grow b t).len = 2 * wb.len) ∧
    (∀ wb : WorkBuffer α, ∀ b t, (wb.shrink b t).len = wb.len / 2) ∧
    (∀ wb : WorkBuffer α, ∀ k b t, wb.len = 2 ^ k → 2 ^ k < HALF → t ≤ b →
      b ≤ t + wb.len → ∀ i, t ≤ i → i < b → (wb.grow b t).get i = wb.get i) ∧
    (∀ wb : WorkBuffer α, ∀ k b t, wb.len = 2 ^ (k + 1) → 2 ^ (k + 1) < HALF → t ≤ b →
      b ≤ t + 2 ^ k → ∀ i, t ≤ i → i < b → (wb.shrink b t).get i = wb.get i) ∧
    (∀ ops : List (Op α), ops.length ≤ FUEL →
      ∃ kk, 1 ≤ kk ∧ (runOps (WorkQueue.new α) ops).active_buffer.len = 2 ^ kk) := by
  refine ⟨?_, ?_, ?_, ?_, ?_, ?_, ?_⟩
  · rw [show (WorkQueue.new α).active_buffer = WorkBuffer.new α 64 from rfl,
      WorkBuffer.len_new]
  · intro wb i h1 h2
    have hm : (wb.len + (W - 1)) % W = wb.len - 1 := by
      simp only [W] at h2 ⊢
      omega
    rw [WorkBuffer.wrap, hm]
  · intro wb b t h
    rw [WorkBuffer.grow, WorkBuffer.moveRange_len, WorkBuffer.len_new,
      Nat.shiftLeft_eq, pow_one, Nat.mul_comm]
    apply Nat.mod_eq_of_lt
    simp only [W, HALF] at h ⊢
    omega
  · intro wb b t
    rw [WorkBuffer.shrink, WorkBuffer.moveRange_len, WorkBuffer.len_new,
      Nat.shiftRight_eq_div_pow, pow_one]
  · intro wb k b t hlen hW htb hble i h1 h2
    have h2kW : 2 ^ k < W := by
      simp only [W, HALF] at hW ⊢
      omega
    have hnew : (WorkBuffer.new α ((wb.len <<< 1) % W)).len = 2 ^ (k + 1) := by
      rw [WorkBuffer.len_new, hlen, Nat.shiftLeft_eq, pow_one,
        show 2 ^ k * 2 = 2 ^ (k + 1) from by rw [Nat.pow_succ]]
      apply Nat.mod_eq_of_lt
      rw [Nat.pow_succ]
      simp only [W, HALF] at hW ⊢
      omega
    have h2k1W : 2 ^ (k + 1) < W := by
      rw [Nat.pow_succ]
      simp only [W, HALF] at hW ⊢
      omega
    rw [WorkBuffer.grow]
    refine WorkBuffer.moveRange_get_live _ _ _ _ i h1 (by omega)
      ?_ ?_ ?_
    · intro j j' hj1 hj2 hj3 hj4 he
      exact WorkBuffer.wrap_inj_range wb k hlen h2kW t (b - t) (by omega)
        j j' hj1 (by omega) hj3 (by omega) he
    · intro j j' hj1 hj2 hj3 hj4 he
      refine WorkBuffer.wrap_inj_range _ (k + 1) hnew h2k1W t (b - t)
        ?_ j j' hj1 (by omega) hj3 (by omega) he
      rw [Nat.pow_succ]
      omega
    · intro j
      exact WorkBuffer.wrap_lt_pow2 _ (k + 1) j hnew h2k1W
  · intro wb k b t hlen hW htb hble i h1 h2
    have h2kW : 2 ^ (k + 1) < W := by
      simp only [W, HALF] at hW ⊢
      omega
    have hkk : 2 ^ k < 2 ^ (k + 1) := by
      rw [Nat.pow_succ]
      have := Nat.one_le_two_pow (n := k)
      omega
    have hnew : (WorkBuffer.new α (wb.len >>> 1)).len = 2 ^ k := by
      rw [WorkBuffer.len_new, hlen, Nat.shiftRight_eq_div_pow, pow_one, Nat.pow_succ]
      omega
    rw [WorkBuffer.shrink]
    refine WorkBuffer.moveRange_get_live _ _ _ _ i h1 (by omega)
      ?_ ?_ ?_
    · intro j j' hj1 hj2 hj3 hj4 he
      exact WorkBuffer.wrap_inj_range wb (k + 1) hlen h2kW t (b - t) (by omega)
        j j' hj1 (by omega) hj3 (by omega) he
    · intro j j' hj1 hj2 hj3 hj4 he
      exact WorkBuffer.wrap_inj_range _ k hnew (by omega) t (b - t) (by omega)
        j j' hj1 (by omega) hj3 (by omega) he
    · intro j
      exact WorkBuffer.wrap_lt_pow2 _ k j hnew (by omega)
  · intro ops hlen
    have h0 : (WorkQueue.new α).bottom + ops.length ≤ FUEL := by
      show (0 : Nat) + ops.length ≤ FUEL
      omega
    exact (runOps_inv ops (WorkQueue.new α) (inv_new α) h0).1.pow2

/-- Witness for C7: the wrap formula and the grow doubling at concrete
buffers. -/
theorem C7_witness :
    (WorkBuffer.new Nat 4).wrap 9 = 9 &&& ((WorkBuffer.new Nat 4).len - 1) ∧
    ((WorkBuffer.new Nat 4).grow 0 0).len = 2 * (WorkBuffer.new Nat 4).len :=
  ⟨(C7_capacity_invariants Nat).2.1 (WorkBuffer.new Nat 4) 9 (by decide) (by decide),
   (C7_capacity_invariants Nat).2.2.1 (WorkBuffer.new Nat 4) 0 0 (by decide)⟩

/-- C8: when pop finds size > 0 it returns Have of the item at b (a real
item), and the capacity halves exactly when the remaining size b - t is
below capacity / 3, with the remaining live range preserved in order. -/
theorem C8_pop_have_and_shrink (α : Type) (q : WorkQueue α) (hInv : Inv q)
    (hpos : q.top + 1 < q.bottom) :
    (q.pop).1 = QueueResult.Have (q.active_buffer.get (q.bottom - 1)) ∧
    (q.active_buffer.get (q.bottom - 1)).isSome = true ∧
    (q.pop).2.active_buffer.len =
      (if q.bottom - 1 - q.top < q.active_buffer.len / 3 then q.active_buffer.len / 2
       else q.active_buffer.len) ∧
    (∀ i, q.top ≤ i → i < q.bottom - 1 →
      (q.pop).2.active_buffer.get i = q.active_buffer.get i) := by
  obtain ⟨h1, h2, h3, h4, h5, h6, h7⟩ := pop_pos_case q hInv hpos
  exact ⟨h1, h2, h5, h6⟩

/-- Witness for C8 at the two-item deque obtained by pushing 1 then 2. -/
theorem C8_witness :
    ((pushAll (WorkQueue.new Nat) [1, 2]).pop).1 =
      QueueResult.Have ((pushAll (WorkQueue.new Nat) [1, 2]).active_buffer.get
        ((pushAll (WorkQueue.new Nat) [1, 2]).bottom - 1)) ∧
    ((pushAll (WorkQueue.new Nat) [1, 2]).pop).2.active_buffer.len =
      (if (pushAll (WorkQueue.new Nat) [1, 2]).bottom - 1 -
          (pushAll (WorkQueue.new Nat) [1, 2]).top <
          (pushAll (WorkQueue.new Nat) [1, 2]).active_buffer.len / 3 then
        (pushAll (WorkQueue.new Nat) [1, 2]).active_buffer.len / 2
      else (pushAll (WorkQueue.new Nat) [1, 2]).active_buffer.len) :=
  ⟨(C8_pop_have_and_shrink Nat (pushAll (WorkQueue.new Nat) [1, 2])
      ⟨by decide, by decide, by decide, ⟨6, by decide, by decide⟩, by decide, by decide⟩
      (by decide)).1,
   (C8_pop_have_and_shrink Nat (pushAll (WorkQueue.new Nat) [1, 2])
      ⟨by decide, by decide, by decide, ⟨6, by decide, by decide⟩, by decide, by decide⟩
      (by decide)).2.2.1⟩

/-- C9: take removes and returns the occupant of the wrapped slot, leaves
the slot holding the empty sentinel, and a second take at the same index
deterministically returns the empty sentinel, never a duplicate. -/
theorem C9_take_removes_and_empties (α : Type) (wb : WorkBuffer α) (i : Nat) :
    (wb.take i).1 = wb.get i ∧
    ((wb.take i).2).get i = none ∧
    (((wb.take i).2).take i).1 = none := by
  refine ⟨rfl, ?_, ?_⟩
  · rw [WorkBuffer.take_snd]
    exact WorkBuffer.get_setSlot_none_self wb i
  · rw [WorkBuffer.take_fst, WorkBuffer.take_snd]
    exact WorkBuffer.get_setSlot_none_self wb i

/-- C10: along any single-threaded bounded sequence of push/pop/steal
operations from a fresh deque, a steal never returns Abort: whenever it
sees a positive size, the slot at top holds an item and the CAS
succeeds. -/
theorem C10_sequential_steal_no_abort (α : Type) (ops : List (Op α))
    (hlen : ops.length ≤ FUEL) :
    ((runOps (WorkQueue.new α) ops).steal).1 ≠ QueueResult.Abort := by
  have h0 : (WorkQueue.new α).bottom + ops.length ≤ FUEL := by
    show (0 : Nat) + ops.length ≤ FUEL
    omega
  have h := runOps_inv ops (WorkQueue.new α) (inv_new α) h0
  exact (steal_preserves _ h.1).2.2

/-- Witness for C10 on the two-operation run push 5 then steal. -/
theorem C10_witness :
    ((runOps (WorkQueue.new Nat) [Op.push 5, Op.steal]).steal).1 ≠
      QueueResult.Abort :=
  C10_sequential_steal_no_abort Nat [Op.push 5, Op.steal] (by decide)

end ChaseLev
